import Mathlib

/-!
Shallow embedding of the `NearestQueue` of `src/nearest_queue.rs` and of the
floating-point distance encoding of `src/distance.rs` from the
rust-photogrammetry/hnsw repository, together with proofs of the
specification's claims about them.

Modelling conventions:
* The Rust array `[Vec<T>; 129]` of buckets is a `List (List T)`; every
  reachable queue has exactly 129 buckets (`WF.len`).
* Machine integers (`u32`, `usize`) are `Nat`; no queue operation can
  overflow them on the reachable states considered here.
* Fallible code paths (the `assert_ne!` in `reset`, out-of-bounds bucket
  indexing, the `unwrap` in `update_worst`) are modelled by `Option`:
  `none` means the Rust code panics.
* `Vec::push` appends on the right, `Vec::pop` removes the rightmost
  element (`List.dropLast`), `Vec::clear` replaces the list by `[]`.
-/

set_option maxRecDepth 100000

namespace HNSW

/-- Buckets flattened in ascending bucket order, every item paired with the
index of the bucket it sits in (the bucket index is the item's distance).
`flatPairs bs d0` enumerates the buckets `bs` starting at index `d0`; the
queue contents are `flatPairs q.distances 0`. -/
def flatPairs {T : Type} : List (List T) → Nat → List (T × Nat)
  | [], _ => []
  | v :: rest, d => v.map (fun item => (item, d)) ++ flatPairs rest (d + 1)

/-- The bounded bucketed nearest queue of `src/nearest_queue.rs`: capacity
`cap`, item count `size`, cached `worst` distance, and one bucket per
distance in `[0, 128]` (129 buckets, `distances : [Vec<T>; 129]`). -/
structure NearestQueue (T : Type) where
  cap : Nat
  size : Nat
  worst : Nat
  distances : List (List T)
deriving DecidableEq

/-- `NearestQueue::new` / `Default::default()`: `cap = 0`, `size = 0`,
`worst = 128`, 129 empty buckets. -/
def NearestQueue.new (T : Type) : NearestQueue T :=
  ⟨0, 0, 128, List.replicate 129 []⟩

/-- `NearestQueue::reset(cap)`: `assert_ne!(cap, 0)` (modelled as `none` on
`cap = 0`), then sets `cap`, `size = 0`, `worst = 128` and clears every
bucket in place. -/
def NearestQueue.reset {T : Type} (q : NearestQueue T) (cap : Nat) :
    Option (NearestQueue T) :=
  if cap = 0 then none
  else some ⟨cap, 0, 128, q.distances.map (fun _ => [])⟩

/-- The scan `self.distances[0..=worst].iter().rev().position(|v| !v.is_empty())`
of `update_worst`, returning directly the index `worst - position`, i.e. the
largest index `≤ w` whose bucket is non-empty (`none` when all those buckets
are empty, in which case the Rust `unwrap` panics). -/
def scanWorst {T : Type} (bs : List (List T)) : Nat → Option Nat
  | 0 => if (bs.getD 0 []).isEmpty then none else some 0
  | w + 1 => if (bs.getD (w + 1) []).isEmpty then scanWorst bs w else some (w + 1)

/-- `NearestQueue::update_worst`: replaces `worst` by the largest index of a
non-empty bucket at or below the current `worst`. The slice
`self.distances[0..=worst]` panics when `worst ≥ distances.len()`, and the
`unwrap` panics when every bucket at or below `worst` is empty; both are
`none` here. -/
def NearestQueue.update_worst {T : Type} (q : NearestQueue T) :
    Option (NearestQueue T) :=
  if q.worst < q.distances.length then
    match scanWorst q.distances q.worst with
    | some w => some { q with worst := w }
    | none => none
  else none

/-- `NearestQueue::remove_worst`: pop the last element of bucket `worst`
(`Vec::pop`, a no-op on an empty bucket), then `update_worst`. -/
def NearestQueue.remove_worst {T : Type} (q : NearestQueue T) :
    Option (NearestQueue T) :=
  if q.worst < q.distances.length then
    NearestQueue.update_worst
      { q with distances :=
          q.distances.set q.worst ((q.distances.getD q.worst []).dropLast) }
  else none

/-- `NearestQueue::insert(item, distance)`. Mirrors the source exactly:
if `size != cap`, push into `buckets[distance]`, increment `size`, and
recompute `worst` when the queue just filled; else if `distance < worst`,
push into `buckets[distance]` and `remove_worst`; else reject. The bucket
indexing panics (is `none`) when `distance ≥ distances.len()`. -/
def NearestQueue.insert {T : Type} (q : NearestQueue T) (item : T)
    (distance : Nat) : Option (Bool × NearestQueue T) :=
  if q.size ≠ q.cap then
    if distance < q.distances.length then
      let q1 : NearestQueue T :=
        { q with
          distances := q.distances.set distance
            ((q.distances.getD distance []) ++ [item]),
          size := q.size + 1 }
      if q1.size = q1.cap then
        (NearestQueue.update_worst q1).map (fun q2 => (true, q2))
      else some (true, q1)
    else none
  else if distance < q.worst then
    if distance < q.distances.length then
      let q1 : NearestQueue T :=
        { q with
          distances := q.distances.set distance
            ((q.distances.getD distance []) ++ [item]) }
      (NearestQueue.remove_worst q1).map (fun q2 => (true, q2))
    else none
  else some (false, q)

/-- The bucket at distance `d` (empty for an out-of-range index). -/
def NearestQueue.bucket {T : Type} (q : NearestQueue T) (d : Nat) : List T :=
  q.distances.getD d []

/-- All stored items in ascending bucket order, paired with their distance. -/
def NearestQueue.contents {T : Type} (q : NearestQueue T) : List (T × Nat) :=
  flatPairs q.distances 0

/-- `NearestQueue::fill_slice(s)`: writes
`distances.iter().flat_map(|v| v.iter()).take(min(|s|, size))` into the
front of `s` and returns `&mut s[0..min(|s|, size)]`. The result is the
pair (slice after the writes, returned written-to prefix). -/
def NearestQueue.fill_slice {T : Type} (q : NearestQueue T) (s : List T) :
    List T × List T :=
  let total_fill := min s.length q.size
  let items := q.distances.flatten.take total_fill
  let s1 := items ++ s.drop items.length
  (s1, s1.take total_fill)

/-- `NearestQueue::drain()`, fully consumed: yields every bucket's items in
ascending bucket order paired with the bucket index, and leaves every bucket
empty (`Vec::drain(..)`); the `cap`, `size` and `worst` fields are not
touched. The result is (yielded pairs, queue afterwards). -/
def NearestQueue.drain {T : Type} (q : NearestQueue T) :
    List (T × Nat) × NearestQueue T :=
  (flatPairs q.distances 0, { q with distances := q.distances.map (fun _ => []) })

/-- Folds a stream of `(item, distance)` calls through `insert`, propagating
a panic (`none`) and discarding the returned booleans. -/
def NearestQueue.runInserts {T : Type} (q : NearestQueue T) :
    List (T × Nat) → Option (NearestQueue T)
  | [] => some q
  | (item, d) :: rest =>
    match q.insert item d with
    | some (_, q1) => q1.runInserts rest
    | none => none

/-- A queue freshly constructed with `new()`, `reset(k)`, then fed the given
insert stream. `none` when any step panics. -/
def buildQueue (T : Type) (k : Nat) (stream : List (T × Nat)) :
    Option (NearestQueue T) :=
  match (NearestQueue.new T).reset k with
  | some q0 => q0.runInserts stream
  | none => none

/-- The queue state produced by `reset(k)` on any 129-bucket queue. -/
def mkFresh (T : Type) (k : Nat) : NearestQueue T :=
  ⟨k, 0, 128, List.replicate 129 []⟩

/-- Specification-side stable insertion by distance: places `x` after every
element whose distance is `≤ x.2` and before the rest. -/
def insLe {T : Type} (x : T × Nat) : List (T × Nat) → List (T × Nat)
  | [] => [x]
  | y :: ys => if y.2 ≤ x.2 then y :: insLe x ys else x :: y :: ys

/-- Specification-side stable insertion sort by distance: later stream
elements are placed after earlier elements of equal distance, so the result
lists the stream in ascending distance with ties in insertion order. -/
def sortIns {T : Type} (l : List (T × Nat)) : List (T × Nat) :=
  l.foldl (fun acc x => insLe x acc) []

/-- Specification side of P6: the `k` smallest-distance elements of the
stream, ties broken in favour of earlier insertion. -/
def kSmallest {T : Type} (k : Nat) (l : List (T × Nat)) : List (T × Nat) :=
  (sortIns l).take k

/-- Well-formedness of a reachable queue state: 129 buckets, `size` counts
the stored items and is bounded by a positive `cap`, `worst` is 128 until
the queue is full and afterwards is the largest occupied bucket index. -/
structure WF {T : Type} (q : NearestQueue T) : Prop where
  cap_pos : 0 < q.cap
  len : q.distances.length = 129
  size_eq : q.contents.length = q.size
  size_le : q.size ≤ q.cap
  worst_le : q.worst ≤ 128
  notfull_worst : q.size < q.cap → q.worst = 128
  full_worst : q.size = q.cap → q.distances.getD q.worst [] ≠ []
  above_empty : ∀ d, q.worst < d → q.distances.getD d [] = []

/-- The number of occurrences of `a` in `l`. -/
def occurrences {α : Type} [DecidableEq α] (a : α) (l : List α) : Nat :=
  (l.filter (fun y => decide (y = a))).length

/-- The queue reached by `reset(1)` followed by `insert(5, 3)`; used by the
witnesses below. -/
def wq1 : NearestQueue Nat := ⟨1, 1, 3, (List.replicate 129 []).set 3 [5]⟩

/-- The queue reached from `wq1` by `insert(9, 2)` (which evicts item 5). -/
def wq2 : NearestQueue Nat :=
  ⟨1, 1, 2, (((List.replicate 129 []).set 3 [5]).set 2 [9]).set 3 []⟩

/-! ### The floating-point distance encoding of src/distance.rs -/

/-- The number of distinct mantissa fields of an IEEE-754 binary32 float,
`2^23`. -/
def f32S : Nat := 8388608

/-- Bit patterns of the non-negative finite non-NaN `f32` values: the sign
bit is clear and the exponent field is below 255 (exponent 255 encodes
infinities and NaNs). `f32::to_bits` of such a float is the pattern
itself. -/
def f32Finite (n : Nat) : Prop := n < 255 * f32S

/-- The real value (as a rational) of the `f32` whose bit pattern is `n`
(sign bit clear): with exponent field `e = n / 2^23` and mantissa field
`m = n % 2^23`, subnormals (`e = 0`) denote `m * 2^(-149)` and normal
numbers denote `(2^23 + m) * 2^(e - 127 - 23)`. -/
def f32val (n : Nat) : ℚ :=
  if n < f32S then (n : ℚ) / 2 ^ 149
  else ((f32S + n % f32S : Nat) : ℚ) * 2 ^ (n / f32S) / 2 ^ 150

/-- `f32val` scaled by `2^149`, as a natural number. -/
def f32key (n : Nat) : Nat :=
  if n < f32S then n else (f32S + n % f32S) * 2 ^ (n / f32S - 1)

/-- The blanket `impl<T: FloatingDistance> Distance for T` of
`src/distance.rs`: `distance(lhs, rhs) = floating_distance(lhs, rhs).to_bits()`.
Floats are modelled by their bit patterns, so `to_bits` is the identity and
the integer distance IS the raw bit representation of the floating
distance. -/
def distanceOfFloating {α : Type} (floating_distance : α → α → Nat)
    (lhs rhs : α) : Nat :=
  floating_distance lhs rhs

/-! ### Basic list helpers -/

lemma getD_set_self {T : Type} (l : List (List T)) (n : Nat) (a : List T)
    (h : n < l.length) : (l.set n a).getD n [] = a := by
  simp [List.getD, List.getElem?_set_self', h]

lemma getD_set_ne {T : Type} (l : List (List T)) (m n : Nat) (a : List T)
    (h : m ≠ n) : (l.set m a).getD n [] = l.getD n [] := by
  simp [List.getD, List.getElem?_set_ne h]

lemma getD_replicate_nil {T : Type} (n j : Nat) :
    (List.replicate n ([] : List T)).getD j [] = [] := by
  rcases Nat.lt_or_ge j n with h | h
  · simp [List.getD, List.getElem?_replicate, h]
  · exact List.getD_eq_default _ _ (by simpa using h)

lemma getD_oob {T : Type} (l : List (List T)) (n : Nat) (h : l.length ≤ n) :
    l.getD n [] = [] :=
  List.getD_eq_default _ _ h

lemma take_append_len {α : Type} (l1 l2 : List α) (n : Nat)
    (h : l1.length = n) : (l1 ++ l2).take n = l1 := by
  subst h
  exact List.take_left l1 l2

/-! ### Lemmas about `insLe` -/

lemma insLe_length {T : Type} (x : T × Nat) (l : List (T × Nat)) :
    (insLe x l).length = l.length + 1 := by
  induction l with
  | nil => rfl
  | cons y ys ih =>
    by_cases h : y.2 ≤ x.2 <;> simp [insLe, h, ih]

lemma insLe_append_left {T : Type} (x : T × Nat) (l1 l2 : List (T × Nat))
    (h : ∀ y ∈ l1, y.2 ≤ x.2) : insLe x (l1 ++ l2) = l1 ++ insLe x l2 := by
  induction l1 with
  | nil => simp
  | cons y ys ih =>
    have hy : y.2 ≤ x.2 := h y (by simp)
    simp [insLe, hy, ih (fun z hz => h z (by simp [hz]))]

lemma insLe_cons_of_lt {T : Type} (x : T × Nat) (l : List (T × Nat))
    (h : ∀ y ∈ l, x.2 < y.2) : insLe x l = x :: l := by
  cases l with
  | nil => rfl
  | cons y ys =>
    have hy : ¬ y.2 ≤ x.2 := by
      have := h y (by simp)
      omega
    simp [insLe, hy]

lemma insLe_append_right {T : Type} (x : T × Nat) (l : List (T × Nat))
    (h : ∀ y ∈ l, y.2 ≤ x.2) : insLe x l = l ++ [x] := by
  have := insLe_append_left x l [] h
  simpa using this

lemma take_cons_take {T : Type} (y : T × Nat) (l : List (T × Nat)) (j : Nat) :
    (y :: l.take j).take j = (y :: l).take j := by
  cases j with
  | zero => simp
  | succ i =>
    simp [List.take_succ_cons, List.take_take, Nat.min_comm]

lemma insLe_take {T : Type} (x : T × Nat) :
    ∀ (s : List (T × Nat)) (k : Nat),
      (insLe x s).take k = (insLe x (s.take k)).take k := by
  intro s
  induction s with
  | nil => intro k; simp
  | cons y ys ih =>
    intro k
    cases k with
    | zero => simp
    | succ j =>
      by_cases h : y.2 ≤ x.2
      · simp only [insLe, if_pos h, List.take_succ_cons]
        rw [ih j]
      · simp only [insLe, if_pos h, List.take_succ_cons, if_neg h]
        rw [take_cons_take]

lemma sortIns_concat {T : Type} (l : List (T × Nat)) (x : T × Nat) :
    sortIns (l ++ [x]) = insLe x (sortIns l) := by
  simp [sortIns, List.foldl_append]

lemma insLe_perm {T : Type} (x : T × Nat) (l : List (T × Nat)) :
    (insLe x l).Perm (x :: l) := by
  induction l with
  | nil => exact List.Perm.refl _
  | cons y ys ih =>
    by_cases h : y.2 ≤ x.2
    · simp only [insLe, if_pos h]
      exact (ih.cons y).trans (List.Perm.swap x y ys)
    · simp only [insLe, if_neg h]
      exact List.Perm.refl _

lemma foldl_insLe_perm {T : Type} :
    ∀ (l acc : List (T × Nat)),
      (l.foldl (fun acc x => insLe x acc) acc).Perm (acc ++ l) := by
  intro l
  induction l with
  | nil => intro acc; simp
  | cons x xs ih =>
    intro acc
    have h1 := ih (insLe x acc)
    have h2 : (insLe x acc ++ xs).Perm (acc ++ x :: xs) := by
      have h3 : (insLe x acc).Perm (acc ++ [x]) :=
        (insLe_perm x acc).trans (List.perm_append_singleton x acc).symm
      have h4 := h3.append_right xs
      rw [List.append_assoc] at h4
      exact h4
    exact h1.trans h2

lemma sortIns_perm {T : Type} (l : List (T × Nat)) : (sortIns l).Perm l := by
  have := foldl_insLe_perm l []
  simpa [sortIns] using this

lemma insLe_pairwise {T : Type} (x : T × Nat) (l : List (T × Nat))
    (h : l.Pairwise (fun a b : T × Nat => a.2 ≤ b.2)) :
    (insLe x l).Pairwise (fun a b : T × Nat => a.2 ≤ b.2) := by
  induction l with
  | nil => simp [insLe]
  | cons y ys ih =>
    rcases List.pairwise_cons.1 h with ⟨hy, hys⟩
    by_cases hle : y.2 ≤ x.2
    · simp only [insLe, if_pos hle]
      rw [List.pairwise_cons]
      refine ⟨?_, ih hys⟩
      intro z hz
      rcases List.mem_cons.1 ((insLe_perm x ys).mem_iff.1 hz) with rfl | hz2
      · exact hle
      · exact hy z hz2
    · simp only [insLe, if_neg hle]
      rw [List.pairwise_cons]
      refine ⟨?_, h⟩
      intro z hz
      rcases List.mem_cons.1 hz with rfl | hz2
      · omega
      · have := hy z hz2
        omega

lemma sortIns_sorted {T : Type} (l : List (T × Nat)) :
    (sortIns l).Pairwise (fun a b : T × Nat => a.2 ≤ b.2) := by
  have hgen : ∀ (l acc : List (T × Nat)),
      acc.Pairwise (fun a b : T × Nat => a.2 ≤ b.2) →
      (l.foldl (fun acc x => insLe x acc) acc).Pairwise
        (fun a b : T × Nat => a.2 ≤ b.2) := by
    intro l
    induction l with
    | nil => intro acc h; exact h
    | cons x xs ih => intro acc h; exact ih (insLe x acc) (insLe_pairwise x acc h)
  exact hgen l [] (by simp)

/-! ### Lemmas about `flatPairs` -/

lemma mem_map_pair_snd {T : Type} (v : List T) (d0 : Nat) (y : T × Nat)
    (hy : y ∈ v.map (fun item => (item, d0))) : y.2 = d0 := by
  rcases List.mem_map.1 hy with ⟨a, _, rfl⟩
  rfl

lemma flatPairs_snd_ge {T : Type} :
    ∀ (bs : List (List T)) (d0 : Nat) (y : T × Nat),
      y ∈ flatPairs bs d0 → d0 ≤ y.2 := by
  intro bs
  induction bs with
  | nil => intro d0 y hy; simp [flatPairs] at hy
  | cons v rest ih =>
    intro d0 y hy
    simp only [flatPairs] at hy
    rcases List.mem_append.1 hy with h | h
    · rw [mem_map_pair_snd v d0 y h]
    · have := ih (d0 + 1) y h
      omega

lemma flatPairs_mem_bucket {T : Type} :
    ∀ (bs : List (List T)) (d0 : Nat) (y : T × Nat), y ∈ flatPairs bs d0 →
      d0 ≤ y.2 ∧ bs.getD (y.2 - d0) [] ≠ [] := by
  intro bs
  induction bs with
  | nil => intro d0 y hy; simp [flatPairs] at hy
  | cons v rest ih =>
    intro d0 y hy
    simp only [flatPairs] at hy
    rcases List.mem_append.1 hy with h | h
    · rcases List.mem_map.1 h with ⟨a, ha, rfl⟩
      refine ⟨le_refl _, ?_⟩
      simp only [Nat.sub_self, List.getD_cons_zero]
      exact List.ne_nil_of_mem ha
    · rcases ih (d0 + 1) y h with ⟨h1, h2⟩
      refine ⟨by omega, ?_⟩
      have : y.2 - d0 = (y.2 - (d0 + 1)) + 1 := by omega
      rw [this, List.getD_cons_succ]
      exact h2

lemma flatPairs_all_nil {T : Type} :
    ∀ (bs : List (List T)) (d0 : Nat), (∀ j, bs.getD j [] = []) →
      flatPairs bs d0 = [] := by
  intro bs
  induction bs with
  | nil => intro d0 _; rfl
  | cons v rest ih =>
    intro d0 h
    have hv : v = [] := by simpa using h 0
    have hr : flatPairs rest (d0 + 1) = [] :=
      ih (d0 + 1) (fun j => by simpa using h (j + 1))
    simp [flatPairs, hv, hr]

lemma flatPairs_ne_nil {T : Type} :
    ∀ (bs : List (List T)) (j d0 : Nat), j < bs.length → bs.getD j [] ≠ [] →
      flatPairs bs d0 ≠ [] := by
  intro bs
  induction bs with
  | nil => intro j d0 h; simp at h
  | cons v rest ih =>
    intro j d0 hj hne
    cases j with
    | zero =>
      simp only [List.getD_cons_zero] at hne
      simp only [flatPairs]
      intro hcontra
      rcases List.append_eq_nil.1 hcontra with ⟨h1, _⟩
      exact hne (List.map_eq_nil_iff.1 h1)
    | succ i =>
      simp only [List.getD_cons_succ] at hne
      simp only [flatPairs]
      intro hcontra
      rcases List.append_eq_nil.1 hcontra with ⟨_, h2⟩
      exact ih i (d0 + 1) (by simpa using hj) hne h2

lemma pairwise_map_pair {T : Type} (v : List T) (d0 : Nat) :
    (v.map (fun item => (item, d0))).Pairwise
      (fun a b : T × Nat => a.2 ≤ b.2) := by
  induction v with
  | nil => simp
  | cons a as ih =>
    simp only [List.map_cons, List.pairwise_cons]
    refine ⟨?_, ih⟩
    intro b hb
    rcases List.mem_map.1 hb with ⟨c, _, rfl⟩
    exact le_refl d0

lemma flatPairs_sorted {T : Type} :
    ∀ (bs : List (List T)) (d0 : Nat),
      (flatPairs bs d0).Pairwise (fun a b : T × Nat => a.2 ≤ b.2) := by
  intro bs
  induction bs with
  | nil => intro d0; simp [flatPairs]
  | cons v rest ih =>
    intro d0
    simp only [flatPairs]
    rw [List.pairwise_append]
    refine ⟨pairwise_map_pair v d0, ih (d0 + 1), ?_⟩
    intro a ha b hb
    have h1 : a.2 = d0 := mem_map_pair_snd v d0 a ha
    have h2 : d0 + 1 ≤ b.2 := flatPairs_snd_ge rest (d0 + 1) b hb
    omega

lemma flatPairs_set_append {T : Type} (x : T) :
    ∀ (bs : List (List T)) (d d0 : Nat), d < bs.length →
      flatPairs (bs.set d ((bs.getD d []) ++ [x])) d0
        = insLe (x, d0 + d) (flatPairs bs d0) := by
  intro bs
  induction bs with
  | nil => intro d d0 h; simp at h
  | cons v rest ih =>
    intro d d0 _
    cases d with
    | zero =>
      simp only [List.getD_cons_zero, List.set_cons_zero, flatPairs,
        List.map_append, List.map_cons, List.map_nil]
      rw [insLe_append_left (x, d0 + 0) (v.map (fun item => (item, d0))) _
        (fun y hy => by rw [mem_map_pair_snd v d0 y hy]; simp)]
      rw [insLe_cons_of_lt (x, d0 + 0) _
        (fun y hy => by have := flatPairs_snd_ge rest (d0 + 1) y hy; simp; omega)]
      simp
    | succ δ =>
      rename_i hlen
      simp only [List.set_cons_succ, List.getD_cons_succ, flatPairs]
      rw [ih δ (d0 + 1) (by simpa using hlen)]
      rw [insLe_append_left (x, d0 + (δ + 1)) (v.map (fun item => (item, d0))) _
        (fun y hy => by rw [mem_map_pair_snd v d0 y hy]; omega)]
      have harith : d0 + 1 + δ = d0 + (δ + 1) := by omega
      rw [harith]

lemma map_dropLast_pair {T : Type} (f : T → T × Nat) :
    ∀ (v : List T), v.dropLast.map f = (v.map f).dropLast := by
  intro v
  induction v with
  | nil => rfl
  | cons a as ih =>
    cases as with
    | nil => rfl
    | cons b bs =>
      simp only [List.dropLast_cons₂, List.map_cons]
      rw [← List.dropLast_cons₂, ← List.map_cons]
      exact congrArg (List.cons (f a)) ih

lemma flatPairs_set_dropLast {T : Type} :
    ∀ (bs : List (List T)) (w d0 : Nat), w < bs.length → bs.getD w [] ≠ [] →
      (∀ i, w < i → bs.getD i [] = []) →
      flatPairs (bs.set w ((bs.getD w []).dropLast)) d0
        = (flatPairs bs d0).dropLast := by
  intro bs
  induction bs with
  | nil => intro w d0 h; simp at h
  | cons v rest ih =>
    intro w d0 hlen hne hempty
    cases w with
    | zero =>
      have hrest : flatPairs rest (d0 + 1) = [] :=
        flatPairs_all_nil rest (d0 + 1)
          (fun j => by simpa using hempty (j + 1) (by omega))
      simp only [List.set_cons_zero, List.getD_cons_zero, flatPairs, hrest,
        List.append_nil]
      exact map_dropLast_pair _ v
    | succ δ =>
      simp only [List.getD_cons_succ] at hne
      have hne2 : flatPairs rest (d0 + 1) ≠ [] :=
        flatPairs_ne_nil rest δ (d0 + 1) (by simpa using hlen) hne
      simp only [List.set_cons_succ, List.getD_cons_succ, flatPairs]
      rw [ih δ (d0 + 1) (by simpa using hlen) hne
        (fun i hi => by simpa using hempty (i + 1) (by omega))]
      rw [List.dropLast_append_of_ne_nil _ hne2]

/-! ### Lemmas about `scanWorst` -/

lemma scanWorst_le {T : Type} (bs : List (List T)) :
    ∀ w w', scanWorst bs w = some w' → w' ≤ w := by
  intro w
  induction w with
  | zero =>
    intro w' h
    simp only [scanWorst] at h
    by_cases hc : (bs.getD 0 []).isEmpty
    · rw [if_pos hc] at h
      exact absurd h (by simp)
    · rw [if_neg hc] at h
      injection h with h0
      omega
  | succ n ih =>
    intro w' h
    simp only [scanWorst] at h
    by_cases hc : (bs.getD (n + 1) []).isEmpty
    · rw [if_pos hc] at h
      have := ih w' h
      omega
    · rw [if_neg hc] at h
      injection h with h0
      omega

lemma scanWorst_nonempty {T : Type} (bs : List (List T)) :
    ∀ w w', scanWorst bs w = some w' → bs.getD w' [] ≠ [] := by
  intro w
  induction w with
  | zero =>
    intro w' h
    simp only [scanWorst] at h
    by_cases hc : (bs.getD 0 []).isEmpty
    · rw [if_pos hc] at h
      exact absurd h (by simp)
    · rw [if_neg hc] at h
      injection h with h0
      rw [← h0]
      simpa [List.isEmpty_iff] using hc
  | succ n ih =>
    intro w' h
    simp only [scanWorst] at h
    by_cases hc : (bs.getD (n + 1) []).isEmpty
    · rw [if_pos hc] at h
      exact ih w' h
    · rw [if_neg hc] at h
      injection h with h0
      rw [← h0]
      simpa [List.isEmpty_iff] using hc

lemma scanWorst_above {T : Type} (bs : List (List T)) :
    ∀ w w', scanWorst bs w = some w' →
      ∀ i, w' < i → i ≤ w → bs.getD i [] = [] := by
  intro w
  induction w with
  | zero =>
    intro w' h i hi1 hi2
    have := scanWorst_le bs 0 w' h
    omega
  | succ n ih =>
    intro w' h i hi1 hi2
    simp only [scanWorst] at h
    by_cases hc : (bs.getD (n + 1) []).isEmpty
    · rw [if_pos hc] at h
      rcases Nat.eq_or_lt_of_le hi2 with rfl | hlt
      · simpa [List.isEmpty_iff] using hc
      · exact ih w' h i hi1 (by omega)
    · rw [if_neg hc] at h
      injection h with h0
      omega

lemma scanWorst_exists {T : Type} (bs : List (List T)) :
    ∀ w j, j ≤ w → bs.getD j [] ≠ [] → ∃ w', scanWorst bs w = some w' := by
  intro w
  induction w with
  | zero =>
    intro j hj hne
    have hj0 : j = 0 := by omega
    subst hj0
    have hc : ¬ (bs.getD 0 []).isEmpty = true := by
      simpa [List.isEmpty_iff] using hne
    refine ⟨0, ?_⟩
    simp only [scanWorst]
    rw [if_neg hc]
  | succ n ih =>
    intro j hj hne
    by_cases hc : (bs.getD (n + 1) []).isEmpty
    · have hjn : j ≤ n := by
        rcases Nat.eq_or_lt_of_le hj with rfl | hlt
        · exact absurd (List.isEmpty_iff.1 hc) hne
        · omega
      obtain ⟨w', hw'⟩ := ih j hjn hne
      refine ⟨w', ?_⟩
      simp only [scanWorst]
      rw [if_pos hc]
      exact hw'
    · refine ⟨n + 1, ?_⟩
      simp only [scanWorst]
      rw [if_neg hc]

lemma scanWorst_eq_some {T : Type} (bs : List (List T)) :
    ∀ w j, j ≤ w → bs.getD j [] ≠ [] →
      (∀ i, j < i → i ≤ w → bs.getD i [] = []) → scanWorst bs w = some j := by
  intro w
  induction w with
  | zero =>
    intro j hj hne _
    have hj0 : j = 0 := by omega
    subst hj0
    have hc : ¬ (bs.getD 0 []).isEmpty = true := by
      simpa [List.isEmpty_iff] using hne
    simp only [scanWorst]
    rw [if_neg hc]
  | succ n ih =>
    intro j hj hne hempty
    rcases Nat.eq_or_lt_of_le hj with heq | hlt
    · subst heq
      have hc : ¬ (bs.getD (n + 1) []).isEmpty = true := by
        simpa [List.isEmpty_iff] using hne
      simp only [scanWorst]
      rw [if_neg hc]
    · have hc : (bs.getD (n + 1) []).isEmpty = true := by
        rw [List.isEmpty_iff]
        exact hempty (n + 1) hlt (le_refl _)
      simp only [scanWorst]
      rw [if_pos hc]
      exact ih j (by omega) hne (fun i h1 h2 => hempty i h1 (by omega))

/-! ### The three branches of `insert` on well-formed states -/

lemma insert_notfull {T : Type} (q : NearestQueue T) (item : T) (d : Nat)
    (hwf : WF q) (hd : d ≤ 128) (hne : q.size ≠ q.cap) :
    ∃ q', q.insert item d = some (true, q') ∧
      q'.cap = q.cap ∧ q'.size = q.size + 1 ∧
      q'.distances = q.distances.set d ((q.distances.getD d []) ++ [item]) ∧
      WF q' ∧ q'.worst ≤ q.worst ∧
      q'.contents = insLe (item, d) q.contents := by
  have hlen : q.distances.length = 129 := hwf.len
  have hdlt : d < q.distances.length := by omega
  have hsize : q.size < q.cap := lt_of_le_of_ne hwf.size_le hne
  have hworst : q.worst = 128 := hwf.notfull_worst hsize
  have hcc : flatPairs (q.distances.set d ((q.distances.getD d []) ++ [item])) 0
      = insLe (item, d) q.contents := by
    have := flatPairs_set_append item q.distances d 0 hdlt
    simpa using this
  have hlen1 : (q.distances.set d ((q.distances.getD d []) ++ [item])).length
      = 129 := by simp [hlen]
  have hbne : (q.distances.set d ((q.distances.getD d []) ++ [item])).getD d []
      ≠ [] := by
    rw [getD_set_self _ d _ hdlt]
    simp
  have hclen : (insLe (item, d) q.contents).length = q.size + 1 := by
    rw [insLe_length, hwf.size_eq]
  by_cases hfill : q.size + 1 = q.cap
  · -- the queue just filled: `update_worst` recomputes `worst`
    obtain ⟨w', hw'⟩ := scanWorst_exists
      (q.distances.set d ((q.distances.getD d []) ++ [item])) q.worst d
      (by omega) hbne
    have hwle : w' ≤ q.worst := scanWorst_le _ _ _ hw'
    refine ⟨⟨q.cap, q.size + 1, w',
      q.distances.set d ((q.distances.getD d []) ++ [item])⟩, ?_, rfl, rfl, rfl,
      ?_, hwle, hcc⟩
    · simp only [NearestQueue.insert]
      rw [if_pos hne, if_pos hdlt, if_pos hfill]
      have hupd : NearestQueue.update_worst
          (⟨q.cap, q.size + 1, q.worst,
            q.distances.set d ((q.distances.getD d []) ++ [item])⟩ : NearestQueue T)
          = some ⟨q.cap, q.size + 1, w',
            q.distances.set d ((q.distances.getD d []) ++ [item])⟩ := by
        simp only [NearestQueue.update_worst]
        rw [if_pos (show q.worst < (q.distances.set d
          ((q.distances.getD d []) ++ [item])).length by rw [hlen1]; omega)]
        rw [hw']
      rw [hupd]
      rfl
    · refine ⟨hwf.cap_pos, hlen1, ?_, show q.size + 1 ≤ q.cap by omega,
        show w' ≤ 128 by omega, ?_, ?_, ?_⟩
      · show (flatPairs _ 0).length = q.size + 1
        rw [hcc, hclen]
      · intro h
        have h2 : q.size + 1 < q.cap := h
        omega
      · intro _
        exact scanWorst_nonempty _ _ _ hw'
      · intro i hi
        show (q.distances.set d ((q.distances.getD d []) ++ [item])).getD i [] = []
        rcases Nat.lt_or_ge i 129 with h2 | h2
        · exact scanWorst_above _ _ _ hw' i hi (by omega)
        · exact getD_oob _ i (by omega)
  · -- still not full: `worst` is untouched
    refine ⟨⟨q.cap, q.size + 1, q.worst,
      q.distances.set d ((q.distances.getD d []) ++ [item])⟩, ?_, rfl, rfl, rfl,
      ?_, le_refl _, hcc⟩
    · simp only [NearestQueue.insert]
      rw [if_pos hne, if_pos hdlt, if_neg hfill]
    · refine ⟨hwf.cap_pos, hlen1, ?_, show q.size + 1 ≤ q.cap by omega,
        hwf.worst_le, fun _ => hworst, fun h => absurd h hfill, ?_⟩
      · show (flatPairs _ 0).length = q.size + 1
        rw [hcc, hclen]
      · intro i hi
        have hi2 : q.worst < i := hi
        show (q.distances.set d ((q.distances.getD d []) ++ [item])).getD i [] = []
        exact getD_oob _ i (by omega)

lemma insert_full_better {T : Type} (q : NearestQueue T) (item : T) (d : Nat)
    (hwf : WF q) (heq : q.size = q.cap) (hlt : d < q.worst) :
    ∃ q', q.insert item d = some (true, q') ∧
      q'.cap = q.cap ∧ q'.size = q.size ∧
      q'.distances = (q.distances.set d ((q.distances.getD d []) ++ [item])).set
        q.worst ((q.distances.getD q.worst []).dropLast) ∧
      WF q' ∧ q'.worst ≤ q.worst ∧
      q'.contents = (insLe (item, d) q.contents).dropLast := by
  have hlen : q.distances.length = 129 := hwf.len
  have hwle : q.worst ≤ 128 := hwf.worst_le
  have hdlt : d < q.distances.length := by omega
  have hwlt : q.worst < q.distances.length := by omega
  have hdw : d ≠ q.worst := by omega
  have hfw : q.distances.getD q.worst [] ≠ [] := hwf.full_worst heq
  have hcc : flatPairs (q.distances.set d ((q.distances.getD d []) ++ [item])) 0
      = insLe (item, d) q.contents := by
    have := flatPairs_set_append item q.distances d 0 hdlt
    simpa using this
  have hlen1 : (q.distances.set d ((q.distances.getD d []) ++ [item])).length
      = 129 := by simp [hlen]
  have hgw1 : (q.distances.set d ((q.distances.getD d []) ++ [item])).getD
      q.worst [] = q.distances.getD q.worst [] := getD_set_ne _ _ _ _ hdw
  have hbne1 : (q.distances.set d ((q.distances.getD d []) ++ [item])).getD d []
      ≠ [] := by
    rw [getD_set_self _ d _ hdlt]
    simp
  have habove1 : ∀ i, q.worst < i →
      (q.distances.set d ((q.distances.getD d []) ++ [item])).getD i [] = [] := by
    intro i hi
    rw [getD_set_ne _ _ _ _ (by omega)]
    exact hwf.above_empty i hi
  have hdrop : flatPairs ((q.distances.set d ((q.distances.getD d []) ++ [item])).set
      q.worst (((q.distances.set d ((q.distances.getD d []) ++ [item])).getD
        q.worst []).dropLast)) 0
      = (flatPairs (q.distances.set d ((q.distances.getD d []) ++ [item])) 0).dropLast :=
    flatPairs_set_dropLast _ q.worst 0 (by omega) (by rw [hgw1]; exact hfw) habove1
  have hbne2 : ((q.distances.set d ((q.distances.getD d []) ++ [item])).set
      q.worst (((q.distances.set d ((q.distances.getD d []) ++ [item])).getD
        q.worst []).dropLast)).getD d [] ≠ [] := by
    rw [getD_set_ne _ _ _ _ (Ne.symm hdw)]
    exact hbne1
  obtain ⟨w', hw'⟩ := scanWorst_exists _ q.worst d (by omega) hbne2
  have hwle' : w' ≤ q.worst := scanWorst_le _ _ _ hw'
  refine ⟨⟨q.cap, q.size, w',
    (q.distances.set d ((q.distances.getD d []) ++ [item])).set
      q.worst (((q.distances.set d ((q.distances.getD d []) ++ [item])).getD
        q.worst []).dropLast)⟩, ?_, rfl, rfl, by rw [hgw1], ?_, hwle', ?_⟩
  · simp only [NearestQueue.insert]
    rw [if_neg (fun h => h heq), if_pos hlt, if_pos hdlt]
    have hrw : NearestQueue.remove_worst
        (⟨q.cap, q.size, q.worst,
          q.distances.set d ((q.distances.getD d []) ++ [item])⟩ : NearestQueue T)
        = some ⟨q.cap, q.size, w',
          (q.distances.set d ((q.distances.getD d []) ++ [item])).set
            q.worst (((q.distances.set d ((q.distances.getD d []) ++ [item])).getD
              q.worst []).dropLast)⟩ := by
      have hl1 : q.worst < (q.distances.set d
          ((q.distances.getD d []) ++ [item])).length := by
        rw [hlen1]; omega
      have hl2 : q.worst < ((q.distances.set d
          ((q.distances.getD d []) ++ [item])).set q.worst
          (((q.distances.set d ((q.distances.getD d []) ++ [item])).getD
            q.worst []).dropLast)).length := by
        rw [List.length_set, hlen1]; omega
      simp only [NearestQueue.remove_worst]
      rw [if_pos hl1]
      simp only [NearestQueue.update_worst]
      rw [if_pos hl2]
      rw [hw']
    rw [hrw]
    rfl
  · refine ⟨hwf.cap_pos, by simp [hlen], ?_, show q.size ≤ q.cap by omega,
      show w' ≤ 128 by omega, ?_, fun _ => scanWorst_nonempty _ _ _ hw', ?_⟩
    · show (flatPairs _ 0).length = q.size
      rw [hdrop, hcc, List.length_dropLast, insLe_length, hwf.size_eq]
      omega
    · intro h
      have h2 : q.size < q.cap := h
      omega
    · intro i hi
      have hi2 : w' < i := hi
      show ((q.distances.set d ((q.distances.getD d []) ++ [item])).set
        q.worst _).getD i [] = []
      rcases le_or_lt i q.worst with h1 | h1
      · exact scanWorst_above _ _ _ hw' i hi2 h1
      · rw [getD_set_ne _ _ _ _ (by omega)]
        exact habove1 i h1
  · show flatPairs _ 0 = _
    rw [hdrop, hcc]

lemma insert_reject {T : Type} (q : NearestQueue T) (item : T) (d : Nat)
    (heq : q.size = q.cap) (hge : ¬ d < q.worst) :
    q.insert item d = some (false, q) := by
  simp only [NearestQueue.insert]
  rw [if_neg (fun h => h heq), if_neg hge]

/-! ### The combined step lemma and reachability -/

lemma insert_spec {T : Type} (q : NearestQueue T) (item : T) (d : Nat)
    (hwf : WF q) (hd : d ≤ 128) :
    ∃ b q', q.insert item d = some (b, q') ∧ WF q' ∧
      q'.cap = q.cap ∧ q'.worst ≤ q.worst ∧
      q'.contents = (insLe (item, d) q.contents).take q.cap := by
  by_cases hne : q.size = q.cap
  · by_cases hlt : d < q.worst
    · obtain ⟨q', h1, h2, _, _, hwf', h5, h6⟩ :=
        insert_full_better q item d hwf hne hlt
      refine ⟨true, q', h1, hwf', h2, h5, ?_⟩
      rw [h6]
      have hl : (insLe (item, d) q.contents).length = q.cap + 1 := by
        rw [insLe_length, hwf.size_eq, hne]
      rw [List.dropLast_eq_take, hl]
      simp
    · refine ⟨false, q, insert_reject q item d hne hlt, hwf, rfl, le_refl _, ?_⟩
      have hall : ∀ y ∈ q.contents, y.2 ≤ d := by
        intro y hy
        have h2 := (flatPairs_mem_bucket q.distances 0 y hy).2
        simp only [Nat.sub_zero] at h2
        by_contra hgt
        push_neg at hgt
        have hw : q.worst < y.2 := by omega
        exact h2 (hwf.above_empty y.2 hw)
      rw [insLe_append_right _ _ hall]
      have hl : q.contents.length = q.cap := by rw [hwf.size_eq, hne]
      rw [← hl]
      exact (List.take_left _ _).symm
  · obtain ⟨q', h1, h2, _, _, hwf', h5, h6⟩ := insert_notfull q item d hwf hd hne
    refine ⟨true, q', h1, hwf', h2, h5, ?_⟩
    rw [h6]
    have hsize : q.size < q.cap := lt_of_le_of_ne hwf.size_le hne
    have hl : (insLe (item, d) q.contents).length ≤ q.cap := by
      rw [insLe_length, hwf.size_eq]
      omega
    exact (List.take_of_length_le hl).symm

lemma contents_mkFresh {T : Type} (k : Nat) : (mkFresh T k).contents = [] :=
  flatPairs_all_nil _ 0 (fun j => getD_replicate_nil 129 j)

lemma WF_mkFresh {T : Type} (k : Nat) (hk : 0 < k) : WF (mkFresh T k) := by
  refine ⟨hk, by simp [mkFresh], ?_, show 0 ≤ k by omega, le_refl _,
    fun _ => rfl, ?_, ?_⟩
  · rw [show (mkFresh T k).contents = [] from contents_mkFresh k]
    rfl
  · intro h
    have h2 : (0 : Nat) = k := h
    omega
  · intro i _
    exact getD_replicate_nil 129 i

lemma reset_new {T : Type} (k : Nat) (hk : 0 < k) :
    (NearestQueue.new T).reset k = some (mkFresh T k) := by
  simp only [NearestQueue.reset, NearestQueue.new]
  rw [if_neg (by omega)]
  simp [mkFresh, List.map_replicate]

lemma runInserts_spec {T : Type} :
    ∀ (stream : List (T × Nat)) (q : NearestQueue T) (p : List (T × Nat)),
      WF q → q.contents = kSmallest q.cap p → (∀ y ∈ stream, y.2 ≤ 128) →
      ∃ q', q.runInserts stream = some q' ∧ WF q' ∧ q'.cap = q.cap ∧
        q'.contents = kSmallest q.cap (p ++ stream) := by
  intro stream
  induction stream with
  | nil =>
    intro q p hwf hcont _
    exact ⟨q, rfl, hwf, rfl, by simpa using hcont⟩
  | cons x rest ih =>
    intro q p hwf hcont hd
    obtain ⟨b, q1, hins, hwf1, hcap1, _, hcont1⟩ :=
      insert_spec q x.1 x.2 hwf (hd x (by simp))
    have hcont1' : q1.contents = kSmallest q.cap (p ++ [x]) := by
      rw [hcont1, hcont]
      unfold kSmallest
      rw [sortIns_concat]
      rw [← insLe_take]
    obtain ⟨q', hrun, hwf', hcap', hcont'⟩ :=
      ih q1 (p ++ [x]) hwf1 (by rw [hcont1', hcap1]) (fun y hy => hd y (by simp [hy]))
    refine ⟨q', ?_, hwf', by rw [hcap', hcap1], ?_⟩
    · show NearestQueue.runInserts q (x :: rest) = some q'
      rcases x with ⟨xi, xd⟩
      simp only [NearestQueue.runInserts]
      rw [hins]
      exact hrun
    · rw [hcont', hcap1]
      simp

lemma buildQueue_spec {T : Type} (k : Nat) (stream : List (T × Nat))
    (hk : 0 < k) (hd : ∀ y ∈ stream, y.2 ≤ 128) :
    ∃ q, buildQueue T k stream = some q ∧ WF q ∧ q.cap = k ∧
      q.contents = kSmallest k stream := by
  obtain ⟨q, hrun, hwf, hcap, hcont⟩ :=
    runInserts_spec stream (mkFresh T k) [] (WF_mkFresh k hk)
      (by rw [contents_mkFresh]; simp [kSmallest, sortIns]) hd
  refine ⟨q, ?_, hwf, hcap, by simpa using hcont⟩
  simp only [buildQueue]
  rw [reset_new k hk]
  exact hrun

lemma buildQueue_WF {T : Type} (k : Nat) (stream : List (T × Nat))
    (q : NearestQueue T) (hk : 0 < k) (hd : ∀ y ∈ stream, y.2 ≤ 128)
    (hq : buildQueue T k stream = some q) : WF q ∧ q.cap = k := by
  obtain ⟨q2, hq2, hwf, hcap, _⟩ := buildQueue_spec k stream hk hd
  rw [hq] at hq2
  injection hq2 with h
  rw [← h] at hwf hcap
  exact ⟨hwf, hcap⟩

/-! ### Auxiliary lemmas for `fill_slice`, `drain` and the default state -/

lemma set_getD_self {T : Type} :
    ∀ (bs : List (List T)) (n : Nat), bs.set n (bs.getD n []) = bs := by
  intro bs
  induction bs with
  | nil => intro n; rfl
  | cons v rest ih =>
    intro n
    cases n with
    | zero => rfl
    | succ m =>
      rw [List.getD_cons_succ, List.set_cons_succ, ih m]

lemma flatPairs_map_fst {T : Type} :
    ∀ (bs : List (List T)) (d0 : Nat),
      (flatPairs bs d0).map Prod.fst = bs.flatten := by
  intro bs
  induction bs with
  | nil => intro d0; rfl
  | cons v rest ih =>
    intro d0
    simp only [flatPairs, List.map_append, List.flatten_cons, ih (d0 + 1),
      List.map_map]
    congr 1
    show v.map (fun item => item) = v
    exact List.map_id v

lemma flatten_map_nil {T : Type} (l : List (List T)) :
    (l.map (fun _ => ([] : List T))).flatten = [] := by
  induction l with
  | nil => rfl
  | cons v rest ih => simp [ih]

lemma occurrences_append {α : Type} [DecidableEq α] (a : α) (l1 l2 : List α) :
    occurrences a (l1 ++ l2) = occurrences a l1 + occurrences a l2 := by
  simp [occurrences, List.filter_append]

lemma occurrences_map_pair_eq {T : Type} [DecidableEq T] (x : T) (d0 : Nat)
    (v : List T) :
    occurrences (x, d0) (v.map (fun item => (item, d0))) = occurrences x v := by
  induction v with
  | nil => rfl
  | cons a as ih =>
    by_cases hax : a = x
    · subst hax
      simp [occurrences, List.filter_cons] at ih ⊢
      omega
    · simp [occurrences, List.filter_cons, hax, Prod.ext_iff] at ih ⊢
      exact ih

lemma occurrences_eq_zero {α : Type} [DecidableEq α] (a : α) (l : List α)
    (h : ∀ y ∈ l, y ≠ a) : occurrences a l = 0 := by
  simp only [occurrences, List.length_eq_zero]
  rw [List.filter_eq_nil_iff]
  intro y hy
  simpa using h y hy

lemma occurrences_flatPairs {T : Type} [DecidableEq T] :
    ∀ (bs : List (List T)) (d0 : Nat) (x : T) (dd : Nat), d0 ≤ dd →
      occurrences (x, dd) (flatPairs bs d0)
        = occurrences x (bs.getD (dd - d0) []) := by
  intro bs
  induction bs with
  | nil =>
    intro d0 x dd _
    rfl
  | cons v rest ih =>
    intro d0 x dd h
    simp only [flatPairs, occurrences_append]
    rcases Nat.eq_or_lt_of_le h with heq | hlt
    · subst heq
      rw [occurrences_map_pair_eq]
      have hz : occurrences (x, d0) (flatPairs rest (d0 + 1)) = 0 := by
        apply occurrences_eq_zero
        intro y hy
        have := flatPairs_snd_ge rest (d0 + 1) y hy
        intro hcontra
        rw [hcontra] at this
        simp at this
      rw [hz, Nat.sub_self, List.getD_cons_zero]
      omega
    · have hz : occurrences (x, dd) (v.map (fun item => (item, d0))) = 0 := by
        apply occurrences_eq_zero
        intro y hy
        have := mem_map_pair_snd v d0 y hy
        intro hcontra
        rw [hcontra] at this
        simp at this
        omega
      rw [hz, ih (d0 + 1) x dd (by omega)]
      have : dd - d0 = (dd - (d0 + 1)) + 1 := by omega
      rw [this, List.getD_cons_succ]
      omega

/-! ### The claims -/

/-- Claim C1: for every queue freshly reset with `reset(cap)` where
`cap = k > 0` and every insert stream with distances in `[0, 128]`, the
retained contents are exactly the first `k` elements of the stable sort of
the stream by distance: the `k` smallest-distance items (all items when the
stream is shorter than `k`), ties broken in favour of earlier insertion. -/
theorem C1_queue_completeness {T : Type} (k : Nat) (stream : List (T × Nat))
    (hk : 0 < k) (hd : ∀ y ∈ stream, y.2 ≤ 128) :
    (buildQueue T k stream).map NearestQueue.contents
      = some (kSmallest k stream) ∧
    (sortIns stream).Perm stream ∧
    (sortIns stream).Pairwise (fun a b : T × Nat => a.2 ≤ b.2) := by
  obtain ⟨q, h1, _, _, h4⟩ := buildQueue_spec k stream hk hd
  refine ⟨?_, sortIns_perm stream, sortIns_sorted stream⟩
  rw [h1]
  simp [h4]

/-- Witness for C1: cap 2, inserts at distances 5, 3, 4; the queue retains
the two smallest-distance items. -/
theorem C1_queue_completeness_witness :
    (buildQueue Nat 2 [(10, 5), (20, 3), (30, 4)]).map NearestQueue.contents
      = some (kSmallest 2 [(10, 5), (20, 3), (30, 4)]) ∧
    (sortIns [(10, 5), (20, 3), (30, 4)]).Perm
      ([(10, 5), (20, 3), (30, 4)] : List (Nat × Nat)) ∧
    (sortIns [(10, 5), (20, 3), (30, 4)]).Pairwise
      (fun a b : Nat × Nat => a.2 ≤ b.2) :=
  C1_queue_completeness 2 [(10, 5), (20, 3), (30, 4)] (by decide) (by decide)

/-- Claim C4: on every reachable queue (freshly reset with `cap > 0`, then
any inserts with distances in `[0, 128]`) the cached `worst` is correct:
128 while `size < cap`, and the largest index of a non-empty bucket once
`size = cap`. -/
theorem C4_worst_cached {T : Type} (k : Nat) (stream : List (T × Nat))
    (q : NearestQueue T) (hk : 0 < k) (hstream : ∀ y ∈ stream, y.2 ≤ 128)
    (hq : buildQueue T k stream = some q) :
    (q.size < q.cap → q.worst = 128) ∧
    (q.size = q.cap → q.bucket q.worst ≠ [] ∧
      ∀ d, q.bucket d ≠ [] → d ≤ q.worst) := by
  obtain ⟨hwf, _⟩ := buildQueue_WF k stream q hk hstream hq
  refine ⟨hwf.notfull_worst, fun h => ⟨hwf.full_worst h, ?_⟩⟩
  intro d hd
  by_contra hgt
  push_neg at hgt
  exact hd (hwf.above_empty d hgt)

/-- Witness for C4 on the full queue `wq1`: `worst = 3` is the largest
occupied bucket. -/
theorem C4_worst_cached_witness :
    (wq1.size < wq1.cap → wq1.worst = 128) ∧
    (wq1.size = wq1.cap → wq1.bucket wq1.worst ≠ [] ∧
      ∀ d, wq1.bucket d ≠ [] → d ≤ wq1.worst) :=
  C4_worst_cached 1 [(5, 3)] wq1 (by decide) (by decide) (by decide)

/-- Claim C7: `reset(0)` hits `assert_ne!(cap, 0)` and fails fatally;
`reset(cap)` with `cap > 0` yields capacity `cap`, `size = 0`,
`worst = 128` and all 129 buckets empty, regardless of the prior state. -/
theorem C7_reset_behaviour {T : Type} :
    (∀ q : NearestQueue T, q.reset 0 = none) ∧
    (∀ (q : NearestQueue T) (c : Nat), 0 < c → q.distances.length = 129 →
      q.reset c = some ⟨c, 0, 128, List.replicate 129 []⟩) := by
  constructor
  · intro q
    simp [NearestQueue.reset]
  · intro q c hc hlen
    simp only [NearestQueue.reset]
    rw [if_neg (by omega)]
    have hmap : q.distances.map (fun _ => ([] : List T))
        = List.replicate 129 [] := by
      rw [List.eq_replicate_iff]
      refine ⟨by simp [hlen], ?_⟩
      intro b hb
      rcases List.mem_map.1 hb with ⟨a, _, rfl⟩
      rfl
    rw [hmap]

/-- Witness for C7 on the concrete state `wq1`. -/
theorem C7_reset_behaviour_witness :
    wq1.reset 0 = none ∧
    wq1.reset 2 = some ⟨2, 0, 128, List.replicate 129 []⟩ :=
  ⟨C7_reset_behaviour.1 wq1, C7_reset_behaviour.2 wq1 2 (by decide) (by decide)⟩

/-- Claim C8: between resets `worst` never increases: on a reachable queue,
any insert with distance in `[0, 128]` leaves `worst()` at most its
previous value. -/
theorem C8_worst_nonincreasing {T : Type} (k : Nat) (stream : List (T × Nat))
    (q q' : NearestQueue T) (b : Bool) (item : T) (d : Nat)
    (hk : 0 < k) (hstream : ∀ y ∈ stream, y.2 ≤ 128)
    (hq : buildQueue T k stream = some q) (hd : d ≤ 128)
    (hins : q.insert item d = some (b, q')) : q'.worst ≤ q.worst := by
  obtain ⟨hwf, _⟩ := buildQueue_WF k stream q hk hstream hq
  obtain ⟨b2, q2, hins2, _, _, hw2, _⟩ := insert_spec q item d hwf hd
  have h := hins.symm.trans hins2
  injection h with hpair
  have h2 : q' = q2 := congrArg Prod.snd hpair
  rw [h2]
  exact hw2

/-- Witness for C8: inserting at distance 2 into the full queue `wq1`
(worst 3) lowers `worst` to 2. -/
theorem C8_worst_nonincreasing_witness : wq2.worst ≤ wq1.worst :=
  C8_worst_nonincreasing 1 [(5, 3)] wq1 wq2 true 9 2 (by decide) (by decide)
    (by decide) (by decide) (by decide)

/-- Claim C3: exact case analysis of `insert` on a reachable queue with
distance in `[0, 128]`: the insert is accepted (returns `true`, stores the
item) iff `size < cap` or `d < worst`; when not full the item is appended
to `buckets[d]` and `size` incremented; when full and `d < worst` the item
is appended to `buckets[d]` and one element popped from `buckets[worst]`,
leaving `size = cap`; otherwise `insert` returns `false` and the whole
state is unchanged. -/
theorem C3_insert_cases {T : Type} (k : Nat) (stream : List (T × Nat))
    (q : NearestQueue T) (item : T) (d : Nat)
    (hk : 0 < k) (hstream : ∀ y ∈ stream, y.2 ≤ 128)
    (hq : buildQueue T k stream = some q) (hd : d ≤ 128) :
    ((∃ q', q.insert item d = some (true, q')) ↔
      q.size < q.cap ∨ d < q.worst) ∧
    (q.size < q.cap →
      ∃ q', q.insert item d = some (true, q') ∧
        q'.distances = q.distances.set d (q.bucket d ++ [item]) ∧
        q'.size = q.size + 1 ∧ q'.cap = q.cap) ∧
    (q.size = q.cap → d < q.worst →
      ∃ q', q.insert item d = some (true, q') ∧
        q'.distances = (q.distances.set d (q.bucket d ++ [item])).set q.worst
          ((q.bucket q.worst).dropLast) ∧
        q'.size = q.cap ∧ q'.cap = q.cap) ∧
    (q.size = q.cap → ¬ d < q.worst → q.insert item d = some (false, q)) := by
  obtain ⟨hwf, _⟩ := buildQueue_WF k stream q hk hstream hq
  have hcase2 : q.size < q.cap →
      ∃ q', q.insert item d = some (true, q') ∧
        q'.distances = q.distances.set d (q.bucket d ++ [item]) ∧
        q'.size = q.size + 1 ∧ q'.cap = q.cap := by
    intro h
    obtain ⟨q', h1, h2, h3, h4, _, _, _⟩ :=
      insert_notfull q item d hwf hd (by omega)
    exact ⟨q', h1, h4, h3, h2⟩
  have hcase3 : q.size = q.cap → d < q.worst →
      ∃ q', q.insert item d = some (true, q') ∧
        q'.distances = (q.distances.set d (q.bucket d ++ [item])).set q.worst
          ((q.bucket q.worst).dropLast) ∧
        q'.size = q.cap ∧ q'.cap = q.cap := by
    intro heq hlt
    obtain ⟨q', h1, h2, h3, h4, _, _, _⟩ :=
      insert_full_better q item d hwf heq hlt
    exact ⟨q', h1, h4, by rw [h3, heq], h2⟩
  have hcase4 : q.size = q.cap → ¬ d < q.worst →
      q.insert item d = some (false, q) := fun heq hge =>
    insert_reject q item d heq hge
  refine ⟨?_, hcase2, hcase3, hcase4⟩
  constructor
  · rintro ⟨q', hq'⟩
    by_contra hcon
    push_neg at hcon
    obtain ⟨h1, h2⟩ := hcon
    have hsl : q.size ≤ q.cap := hwf.size_le
    have heq : q.size = q.cap := by omega
    have hrej := hcase4 heq (by omega)
    rw [hrej] at hq'
    injection hq' with hpair
    have hcontra : (false : Bool) = true := congrArg Prod.fst hpair
    simp at hcontra
  · rintro (h | h)
    · obtain ⟨q', h1, _⟩ := hcase2 h
      exact ⟨q', h1⟩
    · by_cases heq : q.size = q.cap
      · obtain ⟨q', h1, _⟩ := hcase3 heq h
        exact ⟨q', h1⟩
      · obtain ⟨q', h1, _⟩ := hcase2 (lt_of_le_of_ne hwf.size_le heq)
        exact ⟨q', h1⟩

/-- Witness for C3 at the freshly reset queue of capacity 2 and an insert
at distance 7. -/
theorem C3_insert_cases_witness :
    ((∃ q', (mkFresh Nat 2).insert 9 7 = some (true, q')) ↔
      (mkFresh Nat 2).size < (mkFresh Nat 2).cap ∨ 7 < (mkFresh Nat 2).worst) ∧
    ((mkFresh Nat 2).size < (mkFresh Nat 2).cap →
      ∃ q', (mkFresh Nat 2).insert 9 7 = some (true, q') ∧
        q'.distances = (mkFresh Nat 2).distances.set 7
          ((mkFresh Nat 2).bucket 7 ++ [9]) ∧
        q'.size = (mkFresh Nat 2).size + 1 ∧ q'.cap = (mkFresh Nat 2).cap) ∧
    ((mkFresh Nat 2).size = (mkFresh Nat 2).cap →
      7 < (mkFresh Nat 2).worst →
      ∃ q', (mkFresh Nat 2).insert 9 7 = some (true, q') ∧
        q'.distances = ((mkFresh Nat 2).distances.set 7
          ((mkFresh Nat 2).bucket 7 ++ [9])).set (mkFresh Nat 2).worst
            (((mkFresh Nat 2).bucket (mkFresh Nat 2).worst).dropLast) ∧
        q'.size = (mkFresh Nat 2).cap ∧ q'.cap = (mkFresh Nat 2).cap) ∧
    ((mkFresh Nat 2).size = (mkFresh Nat 2).cap →
      ¬ 7 < (mkFresh Nat 2).worst →
      (mkFresh Nat 2).insert 9 7 = some (false, mkFresh Nat 2)) :=
  C3_insert_cases 2 [] (mkFresh Nat 2) 9 7 (by decide) (by decide) (by decide)
    (by decide)

/-- Claim C6: with the preconditions honoured (`reset(cap)` with positive
`cap`, every distance in `[0, 128]`) no queue operation panics: building
the queue succeeds, and one more insert succeeds — the bucket index stays
inside the 129-element array and the `unwrap` inside `update_worst` always
finds a non-empty bucket. A distance greater than 128 violates this: on a
fresh queue it indexes the bucket array out of bounds (modelled `none`). -/
theorem C6_no_panic {T : Type} :
    (∀ (k : Nat) (stream : List (T × Nat)), 0 < k →
      (∀ y ∈ stream, y.2 ≤ 128) → (buildQueue T k stream).isSome) ∧
    (∀ (k : Nat) (stream : List (T × Nat)) (q : NearestQueue T) (item : T)
      (d : Nat), 0 < k → (∀ y ∈ stream, y.2 ≤ 128) →
      buildQueue T k stream = some q → d ≤ 128 →
      (q.insert item d).isSome) ∧
    buildQueue Nat 1 [(0, 129)] = none := by
  refine ⟨?_, ?_, by decide⟩
  · intro k stream hk hd
    obtain ⟨q, h1, _⟩ := buildQueue_spec k stream hk hd
    rw [h1]
    rfl
  · intro k stream q item d hk hd hq hdle
    obtain ⟨hwf, _⟩ := buildQueue_WF k stream q hk hd hq
    obtain ⟨b, q', h1, _⟩ := insert_spec q item d hwf hdle
    rw [h1]
    rfl

/-- Witness for C6: a concrete build succeeds, an insert on it succeeds,
and the overflow example is included in the theorem itself. -/
theorem C6_no_panic_witness :
    (buildQueue Nat 1 [(5, 3)]).isSome ∧ (wq1.insert 9 2).isSome ∧
    buildQueue Nat 1 [(0, 129)] = none :=
  ⟨(@C6_no_panic Nat).1 1 [(5, 3)] (by decide) (by decide),
   (@C6_no_panic Nat).2.1 1 [(5, 3)] wq1 9 2 (by decide) (by decide)
     (by decide) (by decide),
   (@C6_no_panic Nat).2.2⟩

/-- Claim C10: on a never-reset queue (`new()` / `Default`, `cap = 0`),
`insert(item, d)` with `d` in `[0, 128)` takes the eviction branch (because
`size != cap` is false), returns `true` and stores the item in `buckets[d]`
while `size` stays 0 and `worst` becomes `d`. One item is stored yet
`size = 0` and `cap = 0`, so the size/cap invariants only hold under the
precondition that `reset(cap)` with `cap > 0` ran first. -/
theorem C10_insert_without_reset {T : Type} (item : T) (d : Nat)
    (hd : d < 128) :
    ∃ q', (NearestQueue.new T).insert item d = some (true, q') ∧
      q'.cap = 0 ∧ q'.size = 0 ∧ q'.worst = d ∧
      q'.bucket d = [item] ∧ q'.contents = [(item, d)] := by
  obtain ⟨R, hR⟩ : ∃ R : List (List T), List.replicate 129 [] = R := ⟨_, rfl⟩
  have hnew : NearestQueue.new T = ⟨0, 0, 128, R⟩ := by
    rw [← hR]
    rfl
  have hlenR : R.length = 129 := by rw [← hR]; simp
  have hgetDd : R.getD d [] = [] := by
    rw [← hR]; exact getD_replicate_nil 129 d
  have hget128 : R.getD 128 [] = [] := by
    rw [← hR]; exact getD_replicate_nil 129 128
  have hflatR : flatPairs R 0 = [] := by
    rw [← hR]
    exact flatPairs_all_nil _ 0 (fun j => getD_replicate_nil 129 j)
  have hallR : ∀ j, R.getD j [] = [] := by
    intro j; rw [← hR]; exact getD_replicate_nil 129 j
  have hdR : d < R.length := by omega
  have hb1d : (R.set d (R.getD d [] ++ [item])).getD d [] = [item] := by
    rw [getD_set_self _ d _ hdR, hgetDd]
    rfl
  have hb1_128 : (R.set d (R.getD d [] ++ [item])).getD 128 [] = [] := by
    rw [getD_set_ne _ _ _ _ (by omega), hget128]
  have hlen1 : (R.set d (R.getD d [] ++ [item])).length = 129 := by
    simp [hlenR]
  have hdrop : (R.set d (R.getD d [] ++ [item])).set 128
      (((R.set d (R.getD d [] ++ [item])).getD 128 []).dropLast)
      = R.set d (R.getD d [] ++ [item]) := by
    have h2 := set_getD_self (R.set d (R.getD d [] ++ [item])) 128
    rw [hb1_128] at h2 ⊢
    exact h2
  have hscan : scanWorst ((R.set d (R.getD d [] ++ [item])).set 128
      (((R.set d (R.getD d [] ++ [item])).getD 128 []).dropLast)) 128
      = some d := by
    rw [hdrop]
    apply scanWorst_eq_some _ 128 d (by omega) (by rw [hb1d]; simp)
    intro i h1 _
    rw [getD_set_ne _ _ _ _ (by omega)]
    exact hallR i
  refine ⟨⟨0, 0, d, R.set d (R.getD d [] ++ [item])⟩, ?_, rfl, rfl, rfl, ?_, ?_⟩
  · rw [hnew]
    simp only [NearestQueue.insert]
    have h00 : ¬ ((⟨0, 0, 128, R⟩ : NearestQueue T).size
        ≠ (⟨0, 0, 128, R⟩ : NearestQueue T).cap) := fun h => h rfl
    have hwc : d < (⟨0, 0, 128, R⟩ : NearestQueue T).worst := hd
    have hdc : d < (⟨0, 0, 128, R⟩ : NearestQueue T).distances.length := hdR
    rw [if_neg h00, if_pos hwc, if_pos hdc]
    have hrmw : NearestQueue.remove_worst
        (⟨0, 0, 128, R.set d (R.getD d [] ++ [item])⟩ : NearestQueue T)
        = some ⟨0, 0, d, R.set d (R.getD d [] ++ [item])⟩ := by
      simp only [NearestQueue.remove_worst]
      rw [if_pos (show (128 : Nat) <
        (R.set d (R.getD d [] ++ [item])).length by rw [hlen1]; omega)]
      simp only [NearestQueue.update_worst]
      rw [if_pos (show (128 : Nat) < ((R.set d (R.getD d [] ++ [item])).set 128
        (((R.set d (R.getD d [] ++ [item])).getD 128 []).dropLast)).length by
          simp [hlenR])]
      rw [hscan, hdrop]
    rw [hrmw]
    rfl
  · show (R.set d (R.getD d [] ++ [item])).getD d [] = [item]
    exact hb1d
  · show flatPairs (R.set d (R.getD d [] ++ [item])) 0 = [(item, d)]
    rw [flatPairs_set_append item R d 0 hdR, hflatR]
    simp [insLe]

/-- Witness for C10 at `d = 3`. -/
theorem C10_insert_without_reset_witness :
    ∃ q', (NearestQueue.new Nat).insert 7 3 = some (true, q') ∧
      q'.cap = 0 ∧ q'.size = 0 ∧ q'.worst = 3 ∧
      q'.bucket 3 = [7] ∧ q'.contents = [(7, 3)] :=
  C10_insert_without_reset 7 3 (by decide)

/-- Claim C5: on a reachable queue holding `size` items and any output
slice `s`, `fill_slice(s)` writes exactly `min(|s|, size)` items into the
front of `s` — the prefix of the queue contents in ascending-distance
order, insertion order within a bucket — and returns the written prefix
`s[0..min(|s|, size)]`; the queue itself is taken by shared reference
(`&self`) and is unchanged by construction. -/
theorem C5_fill_slice {T : Type} (k : Nat) (stream : List (T × Nat))
    (q : NearestQueue T) (s : List T)
    (hk : 0 < k) (hstream : ∀ y ∈ stream, y.2 ≤ 128)
    (hq : buildQueue T k stream = some q) :
    (q.fill_slice s).2
      = (q.contents.map Prod.fst).take (min s.length q.size) ∧
    (q.fill_slice s).1
      = (q.contents.map Prod.fst).take (min s.length q.size)
        ++ s.drop (min s.length q.size) ∧
    ((q.fill_slice s).2).length = min s.length q.size ∧
    q.contents.Pairwise (fun a b : T × Nat => a.2 ≤ b.2) := by
  obtain ⟨hwf, _⟩ := buildQueue_WF k stream q hk hstream hq
  have hflat : q.distances.flatten = q.contents.map Prod.fst :=
    (flatPairs_map_fst q.distances 0).symm
  have hAlen : ((q.contents.map Prod.fst).take (min s.length q.size)).length
      = min s.length q.size := by
    rw [List.length_take, List.length_map, hwf.size_eq]
    omega
  have hfs : q.fill_slice s
      = ((q.contents.map Prod.fst).take (min s.length q.size)
          ++ s.drop (min s.length q.size),
         (q.contents.map Prod.fst).take (min s.length q.size)) := by
    simp only [NearestQueue.fill_slice]
    rw [hflat, hAlen]
    have h2 := take_append_len
      ((q.contents.map Prod.fst).take (min s.length q.size))
      (s.drop (min s.length q.size)) (min s.length q.size) hAlen
    rw [h2]
  refine ⟨by rw [hfs], by rw [hfs], ?_, flatPairs_sorted q.distances 0⟩
  rw [hfs]
  exact hAlen

/-- Witness for C5 on the full queue `wq1` and a two-slot slice. -/
theorem C5_fill_slice_witness :
    (wq1.fill_slice [100, 200]).2
      = (wq1.contents.map Prod.fst).take (min ([100, 200] : List Nat).length
          wq1.size) ∧
    (wq1.fill_slice [100, 200]).1
      = (wq1.contents.map Prod.fst).take (min ([100, 200] : List Nat).length
          wq1.size)
        ++ ([100, 200] : List Nat).drop (min ([100, 200] : List Nat).length
          wq1.size) ∧
    ((wq1.fill_slice [100, 200]).2).length
      = min ([100, 200] : List Nat).length wq1.size ∧
    wq1.contents.Pairwise (fun a b : Nat × Nat => a.2 ≤ b.2) :=
  C5_fill_slice 1 [(5, 3)] wq1 [100, 200] (by decide) (by decide) (by decide)

/-- Counterexample to C2's final clause: `drain` empties every bucket but
does not reset the `size` field, so after fully draining a queue of
`size = 1`, `fill_slice` on a one-slot slice writes nothing yet returns a
prefix of length `min(|s|, size) = 1` holding the slice's stale contents —
not an empty prefix. -/
theorem C2_drain_counterexample :
    buildQueue Nat 1 [(7, 0)]
      = some ⟨1, 1, 0, (List.replicate 129 []).set 0 [7]⟩ ∧
    (((⟨1, 1, 0, (List.replicate 129 []).set 0 [7]⟩ :
        NearestQueue Nat).drain.2).fill_slice [42]).2 = [42] ∧
    [42] ≠ ([] : List Nat) :=
  ⟨by decide, by decide, by decide⟩

/-- Claim C2 (amended): on a reachable queue, fully consuming `drain()`
yields every stored item exactly once — the number of copies of `(x, dd)`
among the yielded pairs equals the number of copies of `x` in bucket `dd`
— in non-decreasing distance order, each item paired with its distance,
and afterwards every bucket is empty. However `drain` does not reset the
`size` field, so a subsequent `fill_slice s` writes no items and returns
the prefix `s[0..min(|s|, size)]` with its prior contents, which is
non-empty whenever `s` is non-empty and `size > 0`. -/
theorem C2_drain_amended {T : Type} [DecidableEq T] (k : Nat)
    (stream : List (T × Nat)) (q : NearestQueue T)
    (_hk : 0 < k) (_hstream : ∀ y ∈ stream, y.2 ≤ 128)
    (_hq : buildQueue T k stream = some q) :
    (∀ (x : T) (dd : Nat),
      occurrences (x, dd) q.drain.1 = occurrences x (q.bucket dd)) ∧
    q.drain.1.Pairwise (fun a b : T × Nat => a.2 ≤ b.2) ∧
    (∀ v ∈ q.drain.2.distances, v = ([] : List T)) ∧
    (∀ s : List T, (q.drain.2.fill_slice s).1 = s ∧
      (q.drain.2.fill_slice s).2 = s.take (min s.length q.size)) := by
  refine ⟨?_, flatPairs_sorted q.distances 0, ?_, ?_⟩
  · intro x dd
    have h := occurrences_flatPairs q.distances 0 x dd (by omega)
    rw [Nat.sub_zero] at h
    exact h
  · intro v hv
    simp only [NearestQueue.drain] at hv
    rcases List.mem_map.1 hv with ⟨a, _, rfl⟩
    rfl
  · intro s
    constructor
    · simp [NearestQueue.fill_slice, NearestQueue.drain, flatten_map_nil]
    · simp [NearestQueue.fill_slice, NearestQueue.drain, flatten_map_nil]

/-- Witness for the amended C2 on `wq1`, with the stale-prefix behaviour
of a post-drain `fill_slice` shown on a one-slot slice. -/
theorem C2_drain_amended_witness :
    occurrences ((5 : Nat), 3) wq1.drain.1 = occurrences 5 (wq1.bucket 3) ∧
    (wq1.drain.2.fill_slice [9]).1 = [9] ∧
    (wq1.drain.2.fill_slice [9]).2
      = ([9] : List Nat).take (min ([9] : List Nat).length wq1.size) :=
  ⟨(C2_drain_amended 1 [(5, 3)] wq1 (by decide) (by decide) (by decide)).1 5 3,
   ((C2_drain_amended 1 [(5, 3)] wq1 (by decide) (by decide)
      (by decide)).2.2.2 [9]).1,
   ((C2_drain_amended 1 [(5, 3)] wq1 (by decide) (by decide)
      (by decide)).2.2.2 [9]).2⟩

/-! ### Order preservation of the floating-point bit encoding -/

lemma f32val_eq_key (n : Nat) : f32val n = (f32key n : ℚ) / 2 ^ 149 := by
  unfold f32val f32key
  by_cases h : n < f32S
  · rw [if_pos h, if_pos h]
  · rw [if_neg h, if_neg h]
    have hS : 0 < f32S := by norm_num [f32S]
    have he : 1 ≤ n / f32S := (Nat.one_le_div_iff hS).2 (by omega)
    push_cast
    rw [show n / f32S = (n / f32S - 1) + 1 from by omega, pow_succ]
    rw [show (150 : Nat) = 149 + 1 from rfl, pow_succ]
    field_simp
    ring

lemma f32key_lt_succ (n : Nat) : f32key n < f32key (n + 1) := by
  have hS : f32S = 8388608 := rfl
  unfold f32key
  rw [hS]
  by_cases h1 : n + 1 < 8388608
  · rw [if_pos (by omega), if_pos h1]
    omega
  · rw [if_neg h1]
    by_cases h0 : n < 8388608
    · rw [if_pos h0]
      have h2 : (n + 1) % 8388608 = 0 := by omega
      have h3 : (n + 1) / 8388608 = 1 := by omega
      rw [h2, h3]
      simpa using h0
    · rw [if_neg h0]
      by_cases hm : n % 8388608 = 8388607
      · have h2 : (n + 1) % 8388608 = 0 := by omega
        have h3 : (n + 1) / 8388608 = n / 8388608 + 1 := by omega
        rw [h2, h3]
        have h4 : n / 8388608 + 1 - 1 = (n / 8388608 - 1) + 1 := by omega
        rw [h4, pow_succ, hm]
        have hp : 0 < 2 ^ (n / 8388608 - 1) := Nat.two_pow_pos _
        calc (8388608 + 8388607) * 2 ^ (n / 8388608 - 1)
            < 16777216 * 2 ^ (n / 8388608 - 1) :=
              (Nat.mul_lt_mul_right hp).2 (by omega)
          _ = (8388608 + 0) * (2 ^ (n / 8388608 - 1) * 2) := by ring
      · have h2 : (n + 1) % 8388608 = n % 8388608 + 1 := by omega
        have h3 : (n + 1) / 8388608 = n / 8388608 := by omega
        rw [h2, h3]
        exact (Nat.mul_lt_mul_right (Nat.two_pow_pos _)).2 (by omega)

lemma f32key_strictMono : StrictMono f32key :=
  strictMono_nat_of_lt_succ f32key_lt_succ

/-- Claim C9: the blanket `Distance` implementation for `FloatingDistance`
types returns the raw bit representation of the floating distance, and on
the contracted domain (non-negative, finite, non-NaN — modelled as bit
patterns with sign bit clear and exponent below 255) the encoding
preserves order: `a ≤ b` iff `to_bits(a) ≤ to_bits(b)` as unsigned
integers, stated here as `f32val na ≤ f32val nb ↔ na ≤ nb` for the real
values `f32val` of the patterns. -/
theorem C9_float_bits_order (na nb : Nat) (_ha : f32Finite na)
    (_hb : f32Finite nb) :
    (∀ (fd : Nat → Nat → Nat) (x y : Nat),
      distanceOfFloating fd x y = fd x y) ∧
    (f32val na ≤ f32val nb ↔ na ≤ nb) := by
  refine ⟨fun _ _ _ => rfl, ?_⟩
  rw [f32val_eq_key, f32val_eq_key]
  rw [div_le_div_iff_of_pos_right (by positivity)]
  rw [Nat.cast_le]
  exact f32key_strictMono.le_iff_le

/-- Witness for C9 at the bit patterns of `1.0f32` (0x3F800000) and
`2.0f32` (0x40000000). -/
theorem C9_float_bits_order_witness :
    (∀ (fd : Nat → Nat → Nat) (x y : Nat),
      distanceOfFloating fd x y = fd x y) ∧
    (f32val 1065353216 ≤ f32val 1073741824 ↔ 1065353216 ≤ 1073741824) :=
  C9_float_bits_order 1065353216 1073741824 (by norm_num [f32Finite, f32S])
    (by norm_num [f32Finite, f32S])

end HNSW
